import Mathlib

/-!
Verification of the shortest-path core of `dijkstra.py` (airport route search).

The Python source is shallowly embedded below:

* `Airport` models the `Airport` namedtuple.  CPython distinguishes object
  identity (`is`) from namedtuple equality (`==`, which compares the field
  tuple).  We model identity by an extra `oid` field: Lean equality of
  `Airport` is object identity, while `pyEq` (equality of the five payload
  fields) is Python `==`.
* `Graph` state (`self._neighbors`, a `defaultdict(set)`) is an association
  list from airports to neighbor lists, looked up by `pyEq` (dict hashing of
  namedtuples uses `==`).  Python preserves dict/set insertion order for our
  purposes; sets are modelled as duplicate-free (w.r.t. `pyEq`) lists.
* The `Heap` class wraps `heapq`, whose observable behavior is: `pop` returns
  the minimum element w.r.t. the total order on `Route` tuples
  (price first, then the path list, compared lexicographically with
  namedtuple/tuple ordering).  We model the heap as the list of pushed values
  and `pop` as extraction of the leftmost minimum.
* `get_price` is memoized by `functools.lru_cache`, which keys on the ordered
  argument tuple; the haversine library function is an opaque non-negative
  function of the two coordinate pairs and is taken as a parameter `hv`.
* `dijkstra` is the fuel-indexed loop `dloop` over `stepFn`; the fuel actually
  supplied (`phi` of the initial state, plus one) is proven sufficient, so the
  `Option` never hides nontermination.
-/

/-- The `Airport` namedtuple, plus `oid` modelling CPython object identity
(`id()`).  `==`/hashing on namedtuples ignore `oid` (see `pyEq`);
the `is` operator compares identity, i.e. full `Airport` equality here. -/
structure Airport where
  oid : Nat
  code : List Char
  name : List Char
  country : List Char
  latitude : ℚ
  longitude : ℚ
deriving DecidableEq

/-- The payload field tuple of an `Airport`, in namedtuple field order
`(code, name, country, latitude, longitude)`.  Python `str` is modelled as
`List Char`: Python string comparison is code-point lexicographic, which is
the lexicographic order on `List Char`. -/
def Airport.fields (a : Airport) : List Char × List Char × List Char × ℚ × ℚ :=
  (a.code, a.name, a.country, a.latitude, a.longitude)

/-- Python `==` on `Airport` namedtuples: equality of the field tuple. -/
def pyEq (a b : Airport) : Prop := a.fields = b.fields

instance : DecidableRel pyEq := fun a b =>
  inferInstanceAs (Decidable (a.fields = b.fields))

/-- Python `in` on a collection of airports (membership is decided by `==`). -/
def pyMem (a : Airport) (l : List Airport) : Prop := ∃ b ∈ l, pyEq a b

instance (a : Airport) (l : List Airport) : Decidable (pyMem a l) :=
  inferInstanceAs (Decidable (∃ b ∈ l, pyEq a b))

/-- The `_neighbors` dict of a `Graph`: `defaultdict(set)` as an association
list in insertion order; keys are compared by `pyEq` (dict hashing). -/
abbrev GraphM : Type := List (Airport × List Airport)

/-- `Graph.__init__`: the empty `defaultdict(set)`. -/
def graphInit : GraphM := []

/-- Dict lookup `self._neighbors[node]` without the default-insertion effect:
the stored neighbor set of the first key `pyEq`-equal to `node`, if any. -/
def lookupEntry : GraphM → Airport → Option (List Airport)
  | [], _ => none
  | (k, s) :: t, a => if pyEq k a then some s else lookupEntry t a

/-- The neighbor set that `Graph.neighbors(node)` yields (missing key: empty). -/
def neighborsList (g : GraphM) (a : Airport) : List Airport :=
  (lookupEntry g a).getD []

/-- `Graph.neighbors(node)` as run by a caller that drains the generator:
`yield from self._neighbors[node]` — the `defaultdict` lookup inserts an empty
set under a missing key, so the call returns the (possibly empty) neighbor
sequence together with the possibly-enlarged dict. -/
def neighbors (g : GraphM) (a : Airport) : List Airport × GraphM :=
  match lookupEntry g a with
  | some s => (s, g)
  | none => ([], g ++ [(a, [])])

/-- `self._neighbors[node1].add(node2)`: insert `b` into the set stored under
the first key `pyEq`-equal to `a`, creating the entry if missing
(`defaultdict`); `set.add` is a no-op when a `==`-equal member is present. -/
def addNbr : GraphM → Airport → Airport → GraphM
  | [], a, b => [(a, [b])]
  | (k, s) :: t, a, b =>
      if pyEq k a then (k, if pyMem b s then s else s ++ [b]) :: t
      else (k, s) :: addNbr t a b

/-- `Graph.connect(node1, node2)`. -/
def connect (g : GraphM) (a b : Airport) : GraphM :=
  addNbr (addNbr g a b) b a

/-- A graph built by a sequence of `connect` calls on a fresh `Graph()`. -/
def buildGraph (ops : List (Airport × Airport)) : GraphM :=
  ops.foldl (fun g p => connect g p.1 p.2) graphInit

/-- Adjacency as observed through `Graph.neighbors`: `b` is yielded (up to
`==`) for `a`. -/
def adj (g : GraphM) (a b : Airport) : Prop := pyMem b (neighborsList g a)

instance (g : GraphM) (a b : Airport) : Decidable (adj g a b) :=
  inferInstanceAs (Decidable (pyMem b (neighborsList g a)))

/-- All airports stored in the dict (keys and set members). -/
def nodesOfList (g : GraphM) : List Airport :=
  g.flatMap (fun e => e.1 :: e.2)

/-- Key type realizing Python's ordering on `Airport` namedtuples:
lexicographic on the field tuple. -/
abbrev AirportKey := Lex (List Char × Lex (List Char × Lex (List Char × Lex (ℚ × ℚ))))

/-- Python comparison of `Airport` namedtuples compares the field tuples
lexicographically. -/
def airportKey (a : Airport) : AirportKey :=
  toLex (a.code, toLex (a.name, toLex (a.country, toLex (a.latitude, a.longitude))))

/-- The `Route` namedtuple `(price, path)`. -/
structure Route where
  price : ℚ
  path : List Airport
deriving DecidableEq

/-- Python comparison of `Route` tuples: `price` first, ties broken by the
`path` lists compared lexicographically elementwise. -/
def routeKey (r : Route) : Lex (ℚ × List AirportKey) :=
  toLex (r.price, r.path.map airportKey)

/-- `Heap.push` / `heapq.heappush`: the heap is modelled by the list of its
values in insertion order (only the popped values are observable). -/
def heapPush (h : List Route) (r : Route) : List Route := h ++ [r]

/-- Leftmost minimum of `m :: l` w.r.t. the Python ordering on `Route`s. -/
def minRoute : Route → List Route → Route
  | m, [] => m
  | m, x :: t => minRoute (if routeKey x < routeKey m then x else m) t

/-- `Heap.pop` / `heapq.heappop`: pops the minimum value w.r.t. `<` on the
pushed tuples.  Among value-equal elements `heapq`'s choice is unobservable;
the model takes the leftmost one. -/
def heapPop : List Route → Option (Route × List Route)
  | [] => none
  | x :: t => some (minRoute x t, (x :: t).erase (minRoute x t))

/-- Accumulated cost of a candidate path: the sum of the edge prices along
consecutive pairs, in travel direction (exactly how `dijkstra` accumulates
`price`). -/
def pathCost (price : Airport → Airport → ℚ) : List Airport → ℚ
  | [] => 0
  | [_] => 0
  | a :: b :: t => price a b + pathCost price (b :: t)

/-- Consecutive elements of the list are adjacent in `g`. -/
def chainAdj (g : GraphM) : List Airport → Prop
  | [] => True
  | [_] => True
  | a :: b :: t => adj g a b ∧ chainAdj g (b :: t)

instance chainAdjDec (g : GraphM) : (l : List Airport) → Decidable (chainAdj g l)
  | [] => inferInstanceAs (Decidable True)
  | [_] => inferInstanceAs (Decidable True)
  | a :: b :: t =>
      have : Decidable (chainAdj g (b :: t)) := chainAdjDec g (b :: t)
      inferInstanceAs (Decidable (adj g a b ∧ chainAdj g (b :: t)))

/-- `p` is a walk in `g` from `o` to `u`: nonempty, starts at `o`, ends at
`u`, and consecutive airports are adjacent. -/
def IsWalkFrom (g : GraphM) (o u : Airport) (p : List Airport) : Prop :=
  p ≠ [] ∧ p.head? = some o ∧ p.getLast? = some u ∧ chainAdj g p

instance (g : GraphM) (o u : Airport) (p : List Airport) :
    Decidable (IsWalkFrom g o u p) :=
  inferInstanceAs (Decidable (_ ≠ _ ∧ _ = _ ∧ _ = _ ∧ chainAdj g p))

/-- A default airport; never observable (candidate paths are nonempty). -/
def airport0 : Airport := ⟨0, [], [], [], 0, 0⟩

/-- Last airport of a candidate path (`path[-1]`). -/
def lastA (p : List Airport) : Airport := p.getLastD airport0

/-- `sys.maxsize` on 64-bit CPython. -/
def sysMaxsize : ℕ := 9223372036854775807

/-- The dynamically-typed return value of `Graph.dijkstra`: either the tuple
`(price, path)` or the bare integer `sys.maxsize`. -/
inductive PyResult where
  | tuple : ℚ → List Airport → PyResult
  | intval : ℕ → PyResult
deriving DecidableEq

/-- State of the `while routes:` loop. -/
structure SState where
  frontier : List Route
  visited : List Airport
deriving DecidableEq

/-- Outcome of one loop iteration. -/
inductive StepOut where
  | ret : ℚ → List Airport → StepOut
  | next : SState → StepOut
  | exhausted : StepOut
deriving DecidableEq

/-- The candidates pushed when expanding `airport`, reached by `path` at
accumulated cost `cost`: one per neighbor not in `visited`, in neighbor
order. -/
def pushes (g : GraphM) (price : Airport → Airport → ℚ) (visited : List Airport)
    (cost : ℚ) (path : List Airport) (airport : Airport) : List Route :=
  (neighborsList g airport).filterMap fun n =>
    if pyMem n visited then none
    else some ⟨cost + price airport n, path ++ [n]⟩

/-- One iteration of the `while routes:` loop of `Graph.dijkstra`. -/
def stepFn (g : GraphM) (price : Airport → Airport → ℚ) (destination : Airport)
    (s : SState) : StepOut :=
  match heapPop s.frontier with
  | none => .exhausted
  | some (r, rest) =>
      let airport := lastA r.path
      if pyMem airport s.visited then .next ⟨rest, s.visited⟩
      else if airport = destination then .ret r.price r.path
      else .next ⟨(pushes g price s.visited r.price r.path airport).foldl heapPush rest,
        s.visited ++ [airport]⟩

/-- The state right before the loop: one `Route(price, [origin, neighbor])`
pushed per neighbor of `origin`, and `visited = {origin}`. -/
def initState (g : GraphM) (price : Airport → Airport → ℚ) (origin : Airport) : SState :=
  ⟨((neighborsList g origin).map fun n =>
      Route.mk (price origin n) [origin, n]).foldl heapPush [],
    [origin]⟩

/-- The `while routes:` loop, with explicit fuel (the fuel passed by
`dijkstra` below is proven sufficient, see the termination theorem). -/
def dloop (g : GraphM) (price : Airport → Airport → ℚ) (destination : Airport) :
    ℕ → SState → Option PyResult
  | 0, _ => none
  | fuel + 1, s =>
      match stepFn g price destination s with
      | .ret c p => some (.tuple c p)
      | .exhausted => some (.intval sysMaxsize)
      | .next t => dloop g price destination fuel t

/-- Total degree of the graph airports not yet visited. -/
def unvisitedDeg (g : GraphM) (visited : List Airport) : ℕ :=
  ((nodesOfList g).map fun v =>
    if pyMem v visited then 0 else (neighborsList g v).length).sum

/-- Iteration-count potential: every loop iteration strictly decreases it. -/
def phi (g : GraphM) (s : SState) : ℕ :=
  s.frontier.length + unvisitedDeg g s.visited

/-- `Graph.dijkstra(origin, destination)`.  The price function is the
memoized `get_price`; memoization is return-value transparent, so `dijkstra`
only depends on the function `price` (see `get_price` below for the cache). -/
def dijkstra (g : GraphM) (price : Airport → Airport → ℚ)
    (origin destination : Airport) : Option PyResult :=
  dloop g price destination (phi g (initState g price origin) + 1)
    (initState g price origin)

/-- One loop iteration relates `s` to `t`. -/
def Steps (g : GraphM) (price : Airport → Airport → ℚ) (destination : Airport)
    (s t : SState) : Prop :=
  stepFn g price destination s = .next t

/-- `s` is a state the search for `destination` from `origin` passes
through. -/
def ReachState (g : GraphM) (price : Airport → Airport → ℚ)
    (origin destination : Airport) (s : SState) : Prop :=
  Relation.ReflTransGen (Steps g price destination) (initState g price origin) s

/-- Concrete airports for witnesses and counterexamples.  Distinct `oid`s,
distinct codes, coordinates on a line. -/
def apA : Airport := ⟨1, ['A'], [], [], 0, 0⟩

def apB : Airport := ⟨2, ['B'], [], [], 0, 1⟩

def apC : Airport := ⟨3, ['C'], [], [], 0, 2⟩

def apD : Airport := ⟨4, ['D'], [], [], 0, 3⟩

/-- The `functools.lru_cache` table of `get_price`: association list from the
ordered argument tuple `(origin, destination)` to the cached return value,
keyed by tuple `==` (componentwise namedtuple equality), in insertion
order. -/
abbrev PriceCache : Type := List ((Airport × Airport) × ℚ)

/-- Tuple `==` on the cache key `(origin, destination)`. -/
def pairPyEq (p q : Airport × Airport) : Prop := pyEq p.1 q.1 ∧ pyEq p.2 q.2

instance : DecidableRel pairPyEq := fun p q =>
  inferInstanceAs (Decidable (pyEq p.1 q.1 ∧ pyEq p.2 q.2))

/-- Cache lookup by the ordered key tuple. -/
def cacheFind : PriceCache → Airport × Airport → Option ℚ
  | [], _ => none
  | (k, v) :: t, p => if pairPyEq k p then some v else cacheFind t p

/-- The default `cents_per_km=0.1`. -/
def centsPerKm : ℚ := 1 / 10

/-- Observable outcome of one `get_price(origin, destination)` call: the
returned value, the cache afterwards, and whether the underlying haversine
computation actually ran (cache miss). -/
structure PriceCall where
  value : ℚ
  cache : PriceCache
  computed : Bool
deriving DecidableEq

/-- `Graph.get_price(origin, destination)` including its `lru_cache` effect;
`hv` is the `haversine.haversine` library function, an opaque function of
the two `(latitude, longitude)` pairs. -/
def get_price (hv : ℚ × ℚ → ℚ × ℚ → ℚ) (c : PriceCache)
    (origin destination : Airport) : PriceCall :=
  match cacheFind c (origin, destination) with
  | some v => ⟨v, c, false⟩
  | none =>
      ⟨hv (origin.latitude, origin.longitude)
          (destination.latitude, destination.longitude) * centsPerKm,
        c ++ [((origin, destination),
          hv (origin.latitude, origin.longitude)
            (destination.latitude, destination.longitude) * centsPerKm)],
        true⟩

/-- A concrete symmetric distance function used in witnesses (taxicab
distance; any symmetric function works). -/
def hvTaxi (p q : ℚ × ℚ) : ℚ := |p.1 - q.1| + |p.2 - q.2|

theorem pyEq_refl (a : Airport) : pyEq a a := rfl

theorem pyEq_symm {a b : Airport} (h : pyEq a b) : pyEq b a := h.symm

theorem pyEq_trans {a b c : Airport} (h : pyEq a b) (h' : pyEq b c) : pyEq a c :=
  h.trans h'

theorem pyMem_mono {a : Airport} {l l' : List Airport}
    (hsub : ∀ x ∈ l, x ∈ l') (h : pyMem a l) : pyMem a l' := by
  obtain ⟨b, hb, hab⟩ := h
  exact ⟨b, hsub b hb, hab⟩

theorem pyMem_of_mem {a : Airport} {l : List Airport} (h : a ∈ l) : pyMem a l :=
  ⟨a, h, pyEq_refl a⟩

theorem pyMem_transfer {a b : Airport} {l : List Airport}
    (hab : pyEq a b) (h : pyMem b l) : pyMem a l := by
  obtain ⟨c, hc, hbc⟩ := h
  exact ⟨c, hc, pyEq_trans hab hbc⟩

/-- A concrete price function for witnesses: taxicab distance between the
coordinates times `cents_per_km` (mirrors the shape of `get_price`). -/
def priceTaxi (a b : Airport) : ℚ :=
  hvTaxi (a.latitude, a.longitude) (b.latitude, b.longitude) * centsPerKm

/-- Two disjoint components `{A-B}` and `{C-D}`. -/
def gDisc : GraphM := connect (connect graphInit apA apB) apC apD

/-- The line `A - B - C`. -/
def gLine : GraphM := connect (connect graphInit apA apB) apB apC

/-- An airport `==`-equal to `apB` (same five fields) but a distinct object
(different `oid`). -/
def apBtwin : Airport := ⟨99, ['B'], [], [], 0, 1⟩

/-- A constant price function used in concrete runs (any non-negative price
function is admissible; a literal constant keeps kernel evaluation of the
runs free of rational-arithmetic normalization). -/
def price5 : Airport → Airport → ℚ := fun _ _ => 5

/-- All airport objects a query can touch: the two endpoints and every
object stored in the graph. -/
def scopeList (g : GraphM) (o d : Airport) : List Airport :=
  o :: d :: nodesOfList g

/-- The airports in scope are value-coherent: `==`-equal objects are the
same object.  This holds for the program's data (`Graph.load` interns each
airport once via the `AIRPORTS` registry), and it makes Python's `is`
(destination test) agree with `==` (visited/dict lookups). -/
def Coherent (g : GraphM) (o d : Airport) : Prop :=
  ∀ a ∈ scopeList g o d, ∀ b ∈ scopeList g o d, pyEq a b → a = b

instance (g : GraphM) (o d : Airport) : Decidable (Coherent g o d) :=
  inferInstanceAs
    (Decidable (∀ a ∈ scopeList g o d, ∀ b ∈ scopeList g o d, pyEq a b → a = b))

/-- The full loop invariant for the correctness proof of `dijkstra`
(coherent graph): every frontier candidate is a costed walk from the origin
whose proper prefix is visited and duplicate-free; the origin is visited,
the destination is not; and there is a cost assignment `pv` on visited
nodes that lower-bounds every simple walk from the origin (`pv z ≤ cost P`)
while the frontier covers the cut: every unvisited graph-neighbor `y` of a
visited `z` has a frontier entry of price at most `pv z + price z y`. -/
def DijkInv (g : GraphM) (price : Airport → Airport → ℚ) (o d : Airport)
    (s : SState) : Prop :=
  (∀ r ∈ s.frontier,
      r.path ≠ [] ∧ r.path.head? = some o ∧
      chainAdj g r.path ∧
      r.price = pathCost price r.path ∧
      (∀ x ∈ r.path.dropLast, x ∈ s.visited) ∧
      r.path.dropLast.Nodup ∧
      (∀ x ∈ r.path, x ∈ scopeList g o d)) ∧
  o ∈ s.visited ∧
  (∀ x ∈ s.visited, x ∈ scopeList g o d) ∧
  d ∉ s.visited ∧
  (∃ pv : Airport → ℚ,
    (∀ z ∈ s.visited, ∀ P, IsWalkFrom g o z P → P.Nodup →
        (∀ x ∈ P, x ∈ scopeList g o d) → pv z ≤ pathCost price P) ∧
    (∀ z ∈ s.visited, ∀ y ∈ nodesOfList g, adj g z y → y ∉ s.visited →
        ∃ r ∈ s.frontier, lastA r.path = y ∧ r.price ≤ pv z + price z y))

/-- Invariant of the search loop: every frontier candidate has its price
equal to the accumulated edge costs along its path; its path is nonempty;
all nodes but the last are visited; and — when the graph has no self-loop —
the path's nodes are pairwise `==`-distinct. -/
def FrontierInv (g : GraphM) (price : Airport → Airport → ℚ) (s : SState) : Prop :=
  ∀ r ∈ s.frontier,
    r.price = pathCost price r.path ∧
    r.path ≠ [] ∧
    (∀ x ∈ r.path.dropLast, pyMem x s.visited) ∧
    ((∀ a, ¬ adj g a a) → List.Pairwise (fun a b => ¬ pyEq a b) r.path)

theorem minRoute_mem (m : Route) (l : List Route) : minRoute m l ∈ m :: l := by
  induction l generalizing m with
  | nil => simp [minRoute]
  | cons x t ih =>
    show minRoute (if routeKey x < routeKey m then x else m) t ∈ m :: x :: t
    split
    · rcases List.mem_cons.mp (ih x) with h1 | h1 <;> simp [h1]
    · rcases List.mem_cons.mp (ih m) with h1 | h1 <;> simp [h1]

theorem minRoute_le (m : Route) (l : List Route) :
    ∀ x ∈ m :: l, routeKey (minRoute m l) ≤ routeKey x := by
  induction l generalizing m with
  | nil =>
    intro x hx
    rcases List.mem_singleton.mp hx with rfl
    exact le_of_eq rfl
  | cons y t ih =>
    intro x hx
    show routeKey (minRoute (if routeKey y < routeKey m then y else m) t) ≤ routeKey x
    have hm : routeKey (if routeKey y < routeKey m then y else m) ≤ routeKey m := by
      split
      · exact le_of_lt (by assumption)
      · exact le_refl _
    have hy : routeKey (if routeKey y < routeKey m then y else m) ≤ routeKey y := by
      split
      · exact le_refl _
      · exact le_of_not_lt (by assumption)
    have hmin : routeKey (minRoute (if routeKey y < routeKey m then y else m) t) ≤
        routeKey (if routeKey y < routeKey m then y else m) :=
      ih _ _ (List.mem_cons_self _ _)
    rcases List.mem_cons.mp hx with rfl | hx
    · exact le_trans hmin hm
    rcases List.mem_cons.mp hx with rfl | hx
    · exact le_trans hmin hy
    · exact ih _ _ (List.mem_cons_of_mem _ hx)

theorem heapPop_none {l : List Route} : heapPop l = none ↔ l = [] := by
  cases l <;> simp [heapPop]

theorem heapPop_spec {l : List Route} {r : Route} {rest : List Route}
    (h : heapPop l = some (r, rest)) :
    r ∈ l ∧ (∀ x ∈ l, routeKey r ≤ routeKey x) ∧ l.Perm (r :: rest) := by
  match l, h with
  | x :: t, h =>
    have hmem : minRoute x t ∈ x :: t := minRoute_mem x t
    have hr : r = minRoute x t ∧ rest = (x :: t).erase (minRoute x t) := by
      have := h
      simp [heapPop] at this
      exact ⟨this.1.symm, this.2.symm⟩
    obtain ⟨rfl, rfl⟩ := hr
    exact ⟨hmem, minRoute_le x t, List.perm_cons_erase hmem⟩

theorem heapPush_foldl (l : List Route) (h : List Route) :
    l.foldl heapPush h = h ++ l := by
  induction l generalizing h with
  | nil => simp
  | cons x t ih => simp [heapPush, ih]

/-- C3, counterexample: two equal-cost candidates; the one pushed second
pops first because its path list compares lexicographically smaller
(`heapq` compares the full `Route` tuples, which on a price tie falls
through to comparing the path lists), refuting stable insertion-order
tie-breaking and path-comparison independence. -/
theorem frontier_tie_breaks_by_path_not_insertion :
    (Route.mk 5 [apA, apC]).price = (Route.mk 5 [apA, apB]).price ∧
    Route.mk 5 [apA, apC] ≠ Route.mk 5 [apA, apB] ∧
    heapPop (heapPush (heapPush [] (Route.mk 5 [apA, apC])) (Route.mk 5 [apA, apB])) =
      some (Route.mk 5 [apA, apB], [Route.mk 5 [apA, apC]]) := by
  refine ⟨rfl, by decide, by decide⟩

/-- C3 (amended): a successful pop removes and returns a candidate of
globally minimal accumulated cost, but ties among equal-cost candidates are
resolved by Python's lexicographic comparison of the `(price, path)` tuples —
i.e. by comparing the path sequences — not by insertion order. -/
theorem frontier_pop_is_lexicographic_minimum {h : List Route} {r : Route}
    {rest : List Route} (hpop : heapPop h = some (r, rest)) :
    r ∈ h ∧ h.Perm (r :: rest) ∧
      ∀ x ∈ h, r.price ≤ x.price ∧ routeKey r ≤ routeKey x := by
  obtain ⟨hmem, hle, hperm⟩ := heapPop_spec hpop
  refine ⟨hmem, hperm, fun x hx => ?_⟩
  have hk := hle x hx
  refine ⟨?_, hk⟩
  have : (r.price, r.path.map airportKey).1 < (x.price, x.path.map airportKey).1 ∨
      (r.price, r.path.map airportKey).1 = (x.price, x.path.map airportKey).1 ∧
      (r.price, r.path.map airportKey).2 ≤ (x.price, x.path.map airportKey).2 := by
    rw [← Prod.Lex.le_iff]
    exact hk
  rcases this with h1 | ⟨h1, _⟩
  · exact le_of_lt h1
  · exact le_of_eq h1

/-- Witness for the amended C3 theorem at a concrete two-element heap. -/
theorem frontier_pop_is_lexicographic_minimum_witness :
    Route.mk 5 [apA, apB] ∈ [Route.mk 5 [apA, apC], Route.mk 5 [apA, apB]] ∧
    ([Route.mk 5 [apA, apC], Route.mk 5 [apA, apB]].Perm
      (Route.mk 5 [apA, apB] :: [Route.mk 5 [apA, apC]])) ∧
    ∀ x ∈ [Route.mk 5 [apA, apC], Route.mk 5 [apA, apB]],
      (Route.mk 5 [apA, apB]).price ≤ x.price ∧
        routeKey (Route.mk 5 [apA, apB]) ≤ routeKey x :=
  frontier_pop_is_lexicographic_minimum (by decide)

theorem pyMem_append {a : Airport} {l l' : List Airport} :
    pyMem a (l ++ l') ↔ pyMem a l ∨ pyMem a l' := by
  constructor
  · rintro ⟨b, hb, hab⟩
    rcases List.mem_append.mp hb with h | h
    · exact Or.inl ⟨b, h, hab⟩
    · exact Or.inr ⟨b, h, hab⟩
  · rintro (⟨b, hb, hab⟩ | ⟨b, hb, hab⟩)
    · exact ⟨b, List.mem_append.mpr (Or.inl hb), hab⟩
    · exact ⟨b, List.mem_append.mpr (Or.inr hb), hab⟩

theorem pyMem_singleton {a b : Airport} : pyMem a [b] ↔ pyEq a b := by
  constructor
  · rintro ⟨c, hc, hac⟩
    rcases List.mem_singleton.mp hc with rfl
    exact hac
  · intro h
    exact ⟨b, List.mem_singleton.mpr rfl, h⟩

theorem neighborsList_addNbr_eq {a x : Airport} (g : GraphM) (b : Airport)
    (hx : pyEq a x) :
    neighborsList (addNbr g a b) x =
      if pyMem b (neighborsList g x) then neighborsList g x
      else neighborsList g x ++ [b] := by
  induction g with
  | nil =>
    have : pyEq a x := hx
    simp [addNbr, neighborsList, lookupEntry, this, pyMem]
  | cons e t ih =>
    obtain ⟨k, s⟩ := e
    by_cases hk : pyEq k a
    · have hkx : pyEq k x := pyEq_trans hk hx
      simp [addNbr, hk, neighborsList, lookupEntry, hkx]
    · have hkx : ¬ pyEq k x := by
        intro h
        exact hk (pyEq_trans h (pyEq_symm hx))
      simp [addNbr, hk, neighborsList, lookupEntry, hkx]
      exact ih

theorem neighborsList_addNbr_ne {a x : Airport} (g : GraphM) (b : Airport)
    (hx : ¬ pyEq a x) :
    neighborsList (addNbr g a b) x = neighborsList g x := by
  induction g with
  | nil =>
    have : ¬ pyEq a x := hx
    simp [addNbr, neighborsList, lookupEntry, this]
  | cons e t ih =>
    obtain ⟨k, s⟩ := e
    by_cases hk : pyEq k a
    · have hkx : ¬ pyEq k x := by
        intro h
        exact hx (pyEq_trans (pyEq_symm hk) h)
      simp [addNbr, hk, neighborsList, lookupEntry, hkx]
    · by_cases hkx : pyEq k x
      · simp [addNbr, hk, neighborsList, lookupEntry, hkx]
      · simp [addNbr, hk, neighborsList, lookupEntry, hkx]
        exact ih

theorem adj_addNbr (g : GraphM) (a b x y : Airport) :
    adj (addNbr g a b) x y ↔ adj g x y ∨ (pyEq a x ∧ pyEq y b) := by
  by_cases hx : pyEq a x
  · unfold adj
    rw [neighborsList_addNbr_eq g b hx]
    split
    · constructor
      · exact fun h => Or.inl h
      · rintro (h | ⟨-, hyb⟩)
        · exact h
        · exact pyMem_transfer hyb (by assumption)
    · rw [pyMem_append, pyMem_singleton]
      constructor
      · rintro (h | h)
        · exact Or.inl h
        · exact Or.inr ⟨hx, h⟩
      · rintro (h | ⟨-, h⟩)
        · exact Or.inl h
        · exact Or.inr h
  · unfold adj
    rw [neighborsList_addNbr_ne g b hx]
    constructor
    · exact fun h => Or.inl h
    · rintro (h | ⟨hax, -⟩)
      · exact h
      · exact absurd hax hx

theorem adj_connect (g : GraphM) (a b x y : Airport) :
    adj (connect g a b) x y ↔
      adj g x y ∨ (pyEq a x ∧ pyEq y b) ∨ (pyEq b x ∧ pyEq y a) := by
  unfold connect
  rw [adj_addNbr, adj_addNbr]
  tauto

theorem addNbr_absorb {g : GraphM} {a b : Airport}
    (h : pyMem b (neighborsList g a)) : addNbr g a b = g := by
  induction g with
  | nil =>
    exact absurd h (by simp [neighborsList, lookupEntry, pyMem])
  | cons e t ih =>
    obtain ⟨k, s⟩ := e
    by_cases hk : pyEq k a
    · have hs : neighborsList ((k, s) :: t) a = s := by
        simp [neighborsList, lookupEntry, hk]
      rw [hs] at h
      simp [addNbr, hk, h]
    · have hs : neighborsList ((k, s) :: t) a = neighborsList t a := by
        simp [neighborsList, lookupEntry, hk]
      rw [hs] at h
      simp [addNbr, hk, ih h]

theorem pyMem_nbrs_addNbr_self (g : GraphM) (a b : Airport) :
    pyMem b (neighborsList (addNbr g a b) a) := by
  rw [neighborsList_addNbr_eq g b (pyEq_refl a)]
  split
  · assumption
  · rw [pyMem_append, pyMem_singleton]
    exact Or.inr (pyEq_refl b)

theorem pyMem_nbrs_addNbr_mono {g : GraphM} {x y : Airport} (a b : Airport)
    (h : pyMem y (neighborsList g x)) :
    pyMem y (neighborsList (addNbr g a b) x) :=
  (adj_addNbr g a b x y).mpr (Or.inl h)

theorem connect_idem (g : GraphM) (a b : Airport) :
    connect (connect g a b) a b = connect g a b := by
  have h1 : pyMem b (neighborsList (connect g a b) a) :=
    pyMem_nbrs_addNbr_mono b a (pyMem_nbrs_addNbr_self g a b)
  have h2 : pyMem a (neighborsList (connect g a b) b) :=
    pyMem_nbrs_addNbr_self (addNbr g a b) b a
  show addNbr (addNbr (connect g a b) a b) b a = connect g a b
  rw [addNbr_absorb h1, addNbr_absorb h2]

theorem connect_rev (g : GraphM) (a b : Airport) :
    connect (connect g a b) b a = connect g a b := by
  have h1 : pyMem b (neighborsList (connect g a b) a) :=
    pyMem_nbrs_addNbr_mono b a (pyMem_nbrs_addNbr_self g a b)
  have h2 : pyMem a (neighborsList (connect g a b) b) :=
    pyMem_nbrs_addNbr_self (addNbr g a b) b a
  show addNbr (addNbr (connect g a b) b a) a b = connect g a b
  rw [addNbr_absorb h2, addNbr_absorb h1]

theorem adj_buildGraph_symm (ops : List (Airport × Airport)) (x y : Airport) :
    adj (buildGraph ops) x y ↔ adj (buildGraph ops) y x := by
  have main : ∀ (ops : List (Airport × Airport)) (g : GraphM),
      (∀ x y, adj g x y ↔ adj g y x) →
      ∀ x y, adj (ops.foldl (fun g p => connect g p.1 p.2) g) x y ↔
        adj (ops.foldl (fun g p => connect g p.1 p.2) g) y x := by
    intro ops
    induction ops with
    | nil => exact fun g hg => hg
    | cons p t ih =>
      intro g hg
      refine ih (connect g p.1 p.2) ?_
      intro x y
      rw [adj_connect, adj_connect]
      constructor
      · rintro (h | ⟨h1, h2⟩ | ⟨h1, h2⟩)
        · exact Or.inl ((hg x y).mp h)
        · exact Or.inr (Or.inr ⟨pyEq_symm h2, pyEq_symm h1⟩)
        · exact Or.inr (Or.inl ⟨pyEq_symm h2, pyEq_symm h1⟩)
      · rintro (h | ⟨h1, h2⟩ | ⟨h1, h2⟩)
        · exact Or.inl ((hg y x).mp h)
        · exact Or.inr (Or.inr ⟨pyEq_symm h2, pyEq_symm h1⟩)
        · exact Or.inr (Or.inl ⟨pyEq_symm h2, pyEq_symm h1⟩)
  exact main ops graphInit (fun x y => by simp [adj, graphInit, neighborsList, lookupEntry, pyMem]) x y

/-- C6: any sequence of `connect` calls keeps adjacency symmetric
(`b ∈ neighbors(a)` iff `a ∈ neighbors(b)`, membership in the Python `==`
sense), and `connect` is idempotent: repeating `connect(a,b)`, or following
it with `connect(b,a)`, leaves the `_neighbors` dict literally unchanged. -/
theorem connect_symmetric_and_idempotent :
    (∀ (ops : List (Airport × Airport)) (x y : Airport),
        adj (buildGraph ops) x y ↔ adj (buildGraph ops) y x) ∧
    (∀ (g : GraphM) (a b : Airport), connect (connect g a b) a b = connect g a b) ∧
    (∀ (g : GraphM) (a b : Airport), connect (connect g a b) b a = connect g a b) :=
  ⟨adj_buildGraph_symm, connect_idem, connect_rev⟩

theorem lookupEntry_eq_none {g : GraphM} {n : Airport}
    (h : ∀ e ∈ g, ¬ pyEq e.1 n) : lookupEntry g n = none := by
  induction g with
  | nil => rfl
  | cons e t ih =>
    obtain ⟨k, s⟩ := e
    have hk : ¬ pyEq k n := h (k, s) (List.mem_cons_self _ _)
    simp only [lookupEntry, hk, if_false]
    exact ih (fun e he => h e (List.mem_cons_of_mem _ he))

theorem lookupEntry_append_of_none {g : GraphM} {n : Airport} (l : GraphM)
    (h : lookupEntry g n = none) : lookupEntry (g ++ l) n = lookupEntry l n := by
  induction g with
  | nil => rfl
  | cons e t ih =>
    obtain ⟨k, s⟩ := e
    by_cases hk : pyEq k n
    · simp [lookupEntry, hk] at h
    · simp only [lookupEntry, hk, if_false] at h ⊢
      exact ih h

/-- C9: `Graph.neighbors(node)` on a node with no entry in `_neighbors` is
not a read-only query: it yields the empty sequence, but the `defaultdict`
lookup inserts a fresh empty entry for the node, so the graph state observed
afterwards differs from the state before the call. -/
theorem neighbors_missing_key_mutates {g : GraphM} {n : Airport}
    (h : ∀ e ∈ g, ¬ pyEq e.1 n) :
    neighbors g n = ([], g ++ [(n, [])]) ∧
      (neighbors g n).2 ≠ g ∧
      lookupEntry (neighbors g n).2 n = some [] := by
  have hnone : lookupEntry g n = none := lookupEntry_eq_none h
  have heq : neighbors g n = ([], g ++ [(n, [])]) := by
    unfold neighbors
    rw [hnone]
  refine ⟨heq, ?_, ?_⟩
  · rw [heq]
    intro habs
    have := congrArg List.length habs
    simp at this
  · rw [heq]
    show lookupEntry (g ++ [(n, [])]) n = some []
    rw [lookupEntry_append_of_none _ hnone]
    simp [lookupEntry, pyEq_refl]

/-- Witness for C9 at a concrete graph and missing node. -/
theorem neighbors_missing_key_mutates_witness :
    neighbors [(apA, [apB])] apC = ([], [(apA, [apB])] ++ [(apC, [])]) ∧
      (neighbors [(apA, [apB])] apC).2 ≠ [(apA, [apB])] ∧
      lookupEntry (neighbors [(apA, [apB])] apC).2 apC = some [] :=
  neighbors_missing_key_mutates (by decide)

theorem cacheFind_append_of_none {c : PriceCache} {p : Airport × Airport}
    (l : PriceCache) (h : cacheFind c p = none) :
    cacheFind (c ++ l) p = cacheFind l p := by
  induction c with
  | nil => rfl
  | cons e t ih =>
    obtain ⟨k, v⟩ := e
    by_cases hk : pairPyEq k p
    · simp [cacheFind, hk] at h
    · simp only [List.cons_append, cacheFind, hk, if_false] at h ⊢
      exact ih h

theorem get_price_hit {hv : ℚ × ℚ → ℚ × ℚ → ℚ} {c : PriceCache}
    {a b : Airport} {v : ℚ} (h : cacheFind c (a, b) = some v) :
    get_price hv c a b = ⟨v, c, false⟩ := by
  unfold get_price
  rw [h]

theorem get_price_miss {hv : ℚ × ℚ → ℚ × ℚ → ℚ} {c : PriceCache}
    {a b : Airport} (h : cacheFind c (a, b) = none) :
    get_price hv c a b =
      ⟨hv (a.latitude, a.longitude) (b.latitude, b.longitude) * centsPerKm,
        c ++ [((a, b),
          hv (a.latitude, a.longitude) (b.latitude, b.longitude) * centsPerKm)],
        true⟩ := by
  unfold get_price
  rw [h]

/-- C4, counterexample: `get_price(a, b)` computes and fills the cache, yet
the reversed-order call `get_price(b, a)` still misses the cache and runs
the distance computation again — `lru_cache` keys the *ordered* argument
tuple, not the unordered pair. -/
theorem get_price_reversed_pair_recomputes :
    (get_price hvTaxi [] apA apB).computed = true ∧
    (get_price hvTaxi (get_price hvTaxi [] apA apB).cache apB apA).computed = true := by
  decide

/-- C4 (amended): the cost cache is keyed by the ordered argument pair.
Repeating the call in the same order hits the cache: identical value, no
recomputation.  A reversed-order call is a cache miss and recomputes; its
value equals the first call's value whenever the distance function is
symmetric (as the haversine distance is). -/
theorem get_price_cache_ordered_semantics
    (hv : ℚ × ℚ → ℚ × ℚ → ℚ) (c : PriceCache) (a b : Airport)
    (hsym : ∀ p q, hv p q = hv q p)
    (hmiss : cacheFind c (a, b) = none)
    (hmiss2 : cacheFind c (b, a) = none)
    (hne : ¬ pairPyEq (a, b) (b, a)) :
    ((get_price hv (get_price hv c a b).cache a b).computed = false ∧
      (get_price hv (get_price hv c a b).cache a b).value =
        (get_price hv c a b).value) ∧
    ((get_price hv (get_price hv c a b).cache b a).computed = true ∧
      (get_price hv (get_price hv c a b).cache b a).value =
        (get_price hv c a b).value) := by
  have hone : get_price hv c a b =
      ⟨hv (a.latitude, a.longitude) (b.latitude, b.longitude) * centsPerKm,
        c ++ [((a, b),
          hv (a.latitude, a.longitude) (b.latitude, b.longitude) * centsPerKm)],
        true⟩ := get_price_miss hmiss
  have hfind1 : cacheFind (get_price hv c a b).cache (a, b) =
      some (hv (a.latitude, a.longitude) (b.latitude, b.longitude) * centsPerKm) := by
    rw [hone]
    show cacheFind (c ++ _) (a, b) = _
    rw [cacheFind_append_of_none _ hmiss]
    simp [cacheFind, pairPyEq, pyEq_refl]
  have hfind2 : cacheFind (get_price hv c a b).cache (b, a) = none := by
    rw [hone]
    show cacheFind (c ++ _) (b, a) = _
    rw [cacheFind_append_of_none _ hmiss2]
    simp only [cacheFind]
    rw [if_neg hne]
  refine ⟨⟨?_, ?_⟩, ?_, ?_⟩
  · rw [get_price_hit hfind1]
  · rw [get_price_hit hfind1, hone]
  · rw [get_price_miss hfind2]
  · rw [get_price_miss hfind2, hone]
    show hv (b.latitude, b.longitude) (a.latitude, a.longitude) * centsPerKm = _
    rw [hsym]

/-- Witness for the amended C4 theorem at concrete airports and the taxicab
distance. -/
theorem get_price_cache_ordered_semantics_witness :
    ((get_price hvTaxi (get_price hvTaxi [] apA apB).cache apA apB).computed = false ∧
      (get_price hvTaxi (get_price hvTaxi [] apA apB).cache apA apB).value =
        (get_price hvTaxi [] apA apB).value) ∧
    ((get_price hvTaxi (get_price hvTaxi [] apA apB).cache apB apA).computed = true ∧
      (get_price hvTaxi (get_price hvTaxi [] apA apB).cache apB apA).value =
        (get_price hvTaxi [] apA apB).value) :=
  get_price_cache_ordered_semantics hvTaxi [] apA apB
    (fun p q => by
      show |p.1 - q.1| + |p.2 - q.2| = |q.1 - p.1| + |q.2 - p.2|
      rw [abs_sub_comm p.1 q.1, abs_sub_comm p.2 q.2])
    rfl rfl (by decide)

theorem getLast?_lastA {p : List Airport} (h : p ≠ []) :
    p.getLast? = some (lastA p) := by
  unfold lastA
  rw [List.getLastD_eq_getLast?]
  cases hq : p.getLast? with
  | none => exact absurd (List.getLast?_eq_none_iff.mp hq) h
  | some a => rfl

theorem lastA_cons_of_ne {a : Airport} {l : List Airport} (h : l ≠ []) :
    lastA (a :: l) = lastA l := by
  cases l with
  | nil => exact absurd rfl h
  | cons b t => simp [lastA, List.getLastD_cons]

theorem lastA_append_single (p : List Airport) (n : Airport) :
    lastA (p ++ [n]) = n := by
  induction p with
  | nil => rfl
  | cons a t ih =>
    rw [List.cons_append, lastA_cons_of_ne (by simp), ih]

theorem pathCost_nonneg (price : Airport → Airport → ℚ)
    (hnn : ∀ a b, 0 ≤ price a b) (p : List Airport) : 0 ≤ pathCost price p := by
  induction p with
  | nil => simp [pathCost]
  | cons a t ih =>
    cases t with
    | nil => simp [pathCost]
    | cons b t2 =>
      show 0 ≤ price a b + pathCost price (b :: t2)
      exact add_nonneg (hnn a b) ih

theorem pathCost_append_single (price : Airport → Airport → ℚ)
    (p : List Airport) (n : Airport) (h : p ≠ []) :
    pathCost price (p ++ [n]) = pathCost price p + price (lastA p) n := by
  induction p with
  | nil => exact absurd rfl h
  | cons a t ih =>
    cases t with
    | nil => simp [pathCost, lastA]
    | cons b t2 =>
      show price a b + pathCost price ((b :: t2) ++ [n]) =
        price a b + pathCost price (b :: t2) + price (lastA (a :: b :: t2)) n
      rw [lastA_cons_of_ne (List.cons_ne_nil b t2), ih (List.cons_ne_nil b t2),
        add_assoc]

theorem pathCost_append_cons (price : Airport → Airport → ℚ)
    (A : List Airport) (y : Airport) (B : List Airport) :
    pathCost price (A ++ y :: B) =
      pathCost price (A ++ [y]) + pathCost price (y :: B) := by
  induction A with
  | nil =>
    show pathCost price (y :: B) = pathCost price [y] + pathCost price (y :: B)
    simp [pathCost]
  | cons a t ih =>
    cases t with
    | nil =>
      show price a y + pathCost price (y :: B) =
        (price a y + pathCost price [y]) + pathCost price (y :: B)
      simp [pathCost]
    | cons b t2 =>
      show price a b + pathCost price ((b :: t2) ++ y :: B) =
        (price a b + pathCost price ((b :: t2) ++ [y])) + pathCost price (y :: B)
      rw [ih, add_assoc]

theorem chainAdj_append_single {g : GraphM} {p : List Airport}
    (hc : chainAdj g p) {n : Airport} (h : adj g (lastA p) n) (hne : p ≠ []) :
    chainAdj g (p ++ [n]) := by
  induction p with
  | nil => exact absurd rfl hne
  | cons a t ih =>
    cases t with
    | nil =>
      refine ⟨?_, trivial⟩
      simpa [lastA] using h
    | cons b t2 =>
      obtain ⟨hab, hrest⟩ := hc
      refine ⟨hab, ih hrest ?_ (List.cons_ne_nil b t2)⟩
      rwa [lastA_cons_of_ne (List.cons_ne_nil b t2)] at h

theorem isWalkFrom_append_adj {g : GraphM} {o u : Airport} {p : List Airport}
    (h : IsWalkFrom g o u p) {n : Airport} (hadj : adj g u n) :
    IsWalkFrom g o n (p ++ [n]) := by
  obtain ⟨hne, hhead, hlast, hchain⟩ := h
  have hu : lastA p = u := by
    have h2 := getLast?_lastA hne
    rw [h2] at hlast
    injection hlast
  refine ⟨by simp, ?_, ?_, ?_⟩
  · cases p with
    | nil => exact absurd rfl hne
    | cons a t => simpa using hhead
  · simp
  · exact chainAdj_append_single hchain (by rw [hu]; exact hadj) hne

theorem neighborsList_pyEq {a b : Airport} (g : GraphM) (h : pyEq a b) :
    neighborsList g a = neighborsList g b := by
  induction g with
  | nil => rfl
  | cons e t ih =>
    obtain ⟨k, s⟩ := e
    by_cases hk : pyEq k a
    · have hkb : pyEq k b := pyEq_trans hk h
      simp [neighborsList, lookupEntry, hk, hkb]
    · have hkb : ¬ pyEq k b := fun hb => hk (pyEq_trans hb (pyEq_symm h))
      simp only [neighborsList, lookupEntry, hk, hkb, if_false]
      exact ih

theorem mem_nodesOfList_of_mem_neighborsList {g : GraphM} {a x : Airport}
    (h : x ∈ neighborsList g a) : x ∈ nodesOfList g := by
  induction g with
  | nil => simp [neighborsList, lookupEntry] at h
  | cons e t ih =>
    obtain ⟨k, s⟩ := e
    by_cases hk : pyEq k a
    · have hs : neighborsList ((k, s) :: t) a = s := by
        simp [neighborsList, lookupEntry, hk]
      rw [hs] at h
      simp only [nodesOfList, List.flatMap_cons, List.mem_append, List.mem_cons]
      exact Or.inl (Or.inr h)
    · have hs : neighborsList ((k, s) :: t) a = neighborsList t a := by
        simp [neighborsList, lookupEntry, hk]
      rw [hs] at h
      simp only [nodesOfList, List.flatMap_cons, List.mem_append, List.mem_cons]
      exact Or.inr (ih h)

theorem sum_le_sum_with_extra {α : Type} (l : List α) (f g : α → ℕ) (v : α)
    (hmem : v ∈ l) (hle : ∀ x ∈ l, g x ≤ f x) (h0 : g v = 0) :
    (l.map g).sum + f v ≤ (l.map f).sum := by
  induction l with
  | nil => simp at hmem
  | cons x t ih =>
    rcases List.mem_cons.mp hmem with rfl | hmem2
    · have hsum : (t.map g).sum ≤ (t.map f).sum :=
        List.sum_le_sum (by
          intro i hi
          exact hle i (List.mem_cons_of_mem _ hi))
      simp only [List.map_cons, List.sum_cons, h0]
      omega
    · have hx : g x ≤ f x := hle x (List.mem_cons_self _ _)
      have ht := ih hmem2 (fun i hi => hle i (List.mem_cons_of_mem _ hi))
      simp only [List.map_cons, List.sum_cons]
      omega

theorem stepFn_skip {g : GraphM} {price : Airport → Airport → ℚ} {d : Airport}
    {s : SState} {r : Route} {rest : List Route}
    (hpop : heapPop s.frontier = some (r, rest))
    (hv : pyMem (lastA r.path) s.visited) :
    stepFn g price d s = .next ⟨rest, s.visited⟩ := by
  unfold stepFn
  rw [hpop]
  simp only [hv, if_true]

theorem stepFn_ret {g : GraphM} {price : Airport → Airport → ℚ} {d : Airport}
    {s : SState} {r : Route} {rest : List Route}
    (hpop : heapPop s.frontier = some (r, rest))
    (hv : ¬ pyMem (lastA r.path) s.visited)
    (hd : lastA r.path = d) :
    stepFn g price d s = .ret r.price r.path := by
  unfold stepFn
  rw [hpop]
  simp only [if_neg hv, if_pos hd]

theorem stepFn_expand {g : GraphM} {price : Airport → Airport → ℚ} {d : Airport}
    {s : SState} {r : Route} {rest : List Route}
    (hpop : heapPop s.frontier = some (r, rest))
    (hv : ¬ pyMem (lastA r.path) s.visited)
    (hd : lastA r.path ≠ d) :
    stepFn g price d s =
      .next ⟨rest ++ pushes g price s.visited r.price r.path (lastA r.path),
        s.visited ++ [lastA r.path]⟩ := by
  unfold stepFn
  rw [hpop]
  simp only [hv, if_false, hd, heapPush_foldl]

theorem step_next_cases {g : GraphM} {price : Airport → Airport → ℚ} {d : Airport}
    {s t : SState} (h : stepFn g price d s = .next t) :
    ∃ r rest, heapPop s.frontier = some (r, rest) ∧
      ((pyMem (lastA r.path) s.visited ∧ t = ⟨rest, s.visited⟩) ∨
       (¬ pyMem (lastA r.path) s.visited ∧ lastA r.path ≠ d ∧
         t = ⟨rest ++ pushes g price s.visited r.price r.path (lastA r.path),
           s.visited ++ [lastA r.path]⟩)) := by
  cases hpop : heapPop s.frontier with
  | none =>
    unfold stepFn at h
    rw [hpop] at h
    exact absurd h (by simp)
  | some pr =>
    obtain ⟨r, rest⟩ := pr
    refine ⟨r, rest, rfl, ?_⟩
    by_cases hv : pyMem (lastA r.path) s.visited
    · rw [stepFn_skip hpop hv] at h
      injection h with h2
      exact Or.inl ⟨hv, h2.symm⟩
    · by_cases hd : lastA r.path = d
      · rw [stepFn_ret hpop hv hd] at h
        exact absurd h (by simp)
      · rw [stepFn_expand hpop hv hd] at h
        injection h with h2
        exact Or.inr ⟨hv, hd, h2.symm⟩

theorem step_ret_cases {g : GraphM} {price : Airport → Airport → ℚ} {d : Airport}
    {s : SState} {c : ℚ} {p : List Airport} (h : stepFn g price d s = .ret c p) :
    ∃ r rest, heapPop s.frontier = some (r, rest) ∧
      ¬ pyMem (lastA r.path) s.visited ∧ lastA r.path = d ∧
      c = r.price ∧ p = r.path := by
  cases hpop : heapPop s.frontier with
  | none =>
    unfold stepFn at h
    rw [hpop] at h
    exact absurd h (by simp)
  | some pr =>
    obtain ⟨r, rest⟩ := pr
    by_cases hv : pyMem (lastA r.path) s.visited
    · rw [stepFn_skip hpop hv] at h
      exact absurd h (by simp)
    · by_cases hd : lastA r.path = d
      · rw [stepFn_ret hpop hv hd] at h
        injection h with h1 h2
        exact ⟨r, rest, rfl, hv, hd, h1.symm, h2.symm⟩
      · rw [stepFn_expand hpop hv hd] at h
        exact absurd h (by simp)

theorem step_exhausted_cases {g : GraphM} {price : Airport → Airport → ℚ}
    {d : Airport} {s : SState} (h : stepFn g price d s = .exhausted) :
    s.frontier = [] := by
  cases hpop : heapPop s.frontier with
  | none => exact heapPop_none.mp hpop
  | some pr =>
    obtain ⟨r, rest⟩ := pr
    by_cases hv : pyMem (lastA r.path) s.visited
    · rw [stepFn_skip hpop hv] at h
      exact absurd h (by simp)
    · by_cases hd : lastA r.path = d
      · rw [stepFn_ret hpop hv hd] at h
        exact absurd h (by simp)
      · rw [stepFn_expand hpop hv hd] at h
        exact absurd h (by simp)

theorem pushes_length_le (g : GraphM) (price : Airport → Airport → ℚ)
    (visited : List Airport) (c : ℚ) (p : List Airport) (u : Airport) :
    (pushes g price visited c p u).length ≤ (neighborsList g u).length :=
  List.length_filterMap_le _ _

theorem unvisitedDeg_expand {g : GraphM} {visited : List Airport} {u v : Airport}
    (hvmem : v ∈ nodesOfList g) (hveq : pyEq v u)
    (hu : ¬ pyMem u visited) :
    unvisitedDeg g (visited ++ [u]) + (neighborsList g u).length ≤
      unvisitedDeg g visited := by
  have hvnot : ¬ pyMem v visited := by
    intro hvv
    exact hu (pyMem_transfer (pyEq_symm hveq) hvv)
  have hf : (if pyMem v visited then 0 else (neighborsList g v).length) =
      (neighborsList g u).length := by
    rw [if_neg hvnot, neighborsList_pyEq g hveq]
  have h0 : (if pyMem v (visited ++ [u]) then 0
      else (neighborsList g v).length) = 0 := by
    rw [if_pos (pyMem_append.mpr (Or.inr (pyMem_singleton.mpr hveq)))]
  have hle : ∀ x ∈ nodesOfList g,
      (if pyMem x (visited ++ [u]) then 0 else (neighborsList g x).length) ≤
        (if pyMem x visited then 0 else (neighborsList g x).length) := by
    intro x hx
    by_cases hxv : pyMem x visited
    · rw [if_pos hxv, if_pos (pyMem_append.mpr (Or.inl hxv))]
    · rw [if_neg hxv]
      split
      · exact Nat.zero_le _
      · exact le_refl _
  have := sum_le_sum_with_extra (nodesOfList g)
    (fun x => if pyMem x visited then 0 else (neighborsList g x).length)
    (fun x => if pyMem x (visited ++ [u]) then 0 else (neighborsList g x).length)
    v hvmem hle h0
  unfold unvisitedDeg
  rw [← hf]
  exact this

theorem phi_step_lt {g : GraphM} {price : Airport → Airport → ℚ} {d : Airport}
    {s t : SState} (hstep : stepFn g price d s = .next t)
    (hL : ∀ r ∈ s.frontier, ∃ v ∈ nodesOfList g, pyEq v (lastA r.path)) :
    phi g t < phi g s := by
  obtain ⟨r, rest, hpop, hcase⟩ := step_next_cases hstep
  have hperm := (heapPop_spec hpop).2.2
  have hlen : s.frontier.length = rest.length + 1 := by
    have := hperm.length_eq
    simpa using this
  rcases hcase with ⟨hv, rfl⟩ | ⟨hv, hd, rfl⟩
  · show rest.length + unvisitedDeg g s.visited <
      s.frontier.length + unvisitedDeg g s.visited
    omega
  · obtain ⟨v, hvmem, hveq⟩ := hL r (heapPop_spec hpop).1
    have hpush := pushes_length_le g price s.visited r.price r.path (lastA r.path)
    have hsum := unvisitedDeg_expand hvmem hveq hv
    show (rest ++ pushes g price s.visited r.price r.path (lastA r.path)).length +
      unvisitedDeg g (s.visited ++ [lastA r.path]) <
      s.frontier.length + unvisitedDeg g s.visited
    rw [List.length_append]
    omega

theorem frontier_nodes_ok_init (g : GraphM) (price : Airport → Airport → ℚ)
    (o : Airport) :
    ∀ r ∈ (initState g price o).frontier,
      ∃ v ∈ nodesOfList g, pyEq v (lastA r.path) := by
  intro r hr
  have hfr : (initState g price o).frontier =
      (neighborsList g o).map fun n => Route.mk (price o n) [o, n] := by
    show ((neighborsList g o).map fun n =>
      Route.mk (price o n) [o, n]).foldl heapPush [] = _
    rw [heapPush_foldl]
    rfl
  rw [hfr] at hr
  obtain ⟨n, hn, rfl⟩ := List.mem_map.mp hr
  refine ⟨n, mem_nodesOfList_of_mem_neighborsList hn, ?_⟩
  show pyEq n (lastA [o, n])
  exact pyEq_refl n

theorem frontier_nodes_ok_step {g : GraphM} {price : Airport → Airport → ℚ}
    {d : Airport} {s t : SState} (hstep : stepFn g price d s = .next t)
    (hL : ∀ r ∈ s.frontier, ∃ v ∈ nodesOfList g, pyEq v (lastA r.path)) :
    ∀ r ∈ t.frontier, ∃ v ∈ nodesOfList g, pyEq v (lastA r.path) := by
  obtain ⟨r, rest, hpop, hcase⟩ := step_next_cases hstep
  have hperm := (heapPop_spec hpop).2.2
  have hrest : ∀ x ∈ rest, x ∈ s.frontier := by
    intro x hx
    exact hperm.symm.subset (List.mem_cons_of_mem _ hx)
  rcases hcase with ⟨hv, rfl⟩ | ⟨hv, hd, rfl⟩
  · intro x hx
    exact hL x (hrest x hx)
  · intro x hx
    rcases List.mem_append.mp hx with hx2 | hx2
    · exact hL x (hrest x hx2)
    · obtain ⟨n, hn, hmk⟩ := List.mem_filterMap.mp hx2
      by_cases hnv : pyMem n s.visited
      · rw [if_pos hnv] at hmk
        exact absurd hmk (by simp)
      · rw [if_neg hnv] at hmk
        injection hmk with hmk2
        refine ⟨n, mem_nodesOfList_of_mem_neighborsList hn, ?_⟩
        rw [← hmk2]
        show pyEq n (lastA (r.path ++ [n]))
        rw [lastA_append_single]
        exact pyEq_refl n

theorem dloop_total {g : GraphM} {price : Airport → Airport → ℚ} {d : Airport} :
    ∀ (fuel : ℕ) (s : SState), phi g s < fuel →
      (∀ r ∈ s.frontier, ∃ v ∈ nodesOfList g, pyEq v (lastA r.path)) →
      ∃ res, dloop g price d fuel s = some res := by
  intro fuel
  induction fuel with
  | zero =>
    intro s h hL
    omega
  | succ n ih =>
    intro s hphi hL
    cases hstep : stepFn g price d s with
    | ret c p =>
      exact ⟨.tuple c p, by unfold dloop; rw [hstep]⟩
    | exhausted =>
      exact ⟨.intval sysMaxsize, by unfold dloop; rw [hstep]⟩
    | next t =>
      have hlt := phi_step_lt hstep hL
      obtain ⟨res, hres⟩ := ih t (by omega) (frontier_nodes_ok_step hstep hL)
      exact ⟨res, by unfold dloop; rw [hstep]; exact hres⟩

/-- C8: on every graph, price function and query, `Graph.dijkstra`
terminates with a result — a success tuple or the exhaustion sentinel —
after finitely many loop iterations (the potential `phi` strictly decreases
each iteration and bounds the iteration count). -/
theorem dijkstra_always_terminates (g : GraphM) (price : Airport → Airport → ℚ)
    (origin destination : Airport) :
    ∃ res, dijkstra g price origin destination = some res := by
  unfold dijkstra
  exact dloop_total _ _ (by omega) (frontier_nodes_ok_init g price origin)

theorem dloop_intval_eq_sysMaxsize {g : GraphM} {price : Airport → Airport → ℚ}
    {d : Airport} :
    ∀ (fuel : ℕ) (s : SState) (n : ℕ),
      dloop g price d fuel s = some (.intval n) → n = sysMaxsize := by
  intro fuel
  induction fuel with
  | zero =>
    intro s n h
    simp [dloop] at h
  | succ m ih =>
    intro s n h
    unfold dloop at h
    cases hstep : stepFn g price d s with
    | ret c p =>
      rw [hstep] at h
      simp at h
    | exhausted =>
      rw [hstep] at h
      simp only [Option.some.injEq, PyResult.intval.injEq] at h
      exact h.symm
    | next t =>
      rw [hstep] at h
      exact ih t n h

/-- C2 (amended): when the frontier is exhausted before the destination is
reached, `dijkstra` returns the bare integer `sys.maxsize`
(9223372036854775807): a numeric sentinel freely comparable with real
costs, not a structurally distinct `NoPathFound` value. -/
theorem dijkstra_no_path_returns_integer_sysMaxsize
    {g : GraphM} {price : Airport → Airport → ℚ} {o d : Airport} {n : ℕ}
    (h : dijkstra g price o d = some (.intval n)) :
    n = sysMaxsize :=
  dloop_intval_eq_sysMaxsize _ _ n h

/-- Witness for the amended C2 theorem: a concrete two-component graph. -/
theorem dijkstra_no_path_returns_integer_sysMaxsize_witness :
    (9223372036854775807 : ℕ) = sysMaxsize :=
  @dijkstra_no_path_returns_integer_sysMaxsize gDisc price5 apA apD
    9223372036854775807 (by decide)

/-- C2, counterexample: for a destination in a different component the
function returns the plain integer `sys.maxsize` — a numeric result, which
the claim says is never produced. -/
theorem dijkstra_disconnected_returns_numeric_sentinel :
    dijkstra gDisc price5 apA apD = some (.intval 9223372036854775807) := by
  decide

theorem dloop_dest_visited_no_tuple {g : GraphM} {price : Airport → Airport → ℚ}
    {d : Airport} :
    ∀ (fuel : ℕ) (s : SState), pyMem d s.visited →
      ∀ c p, dloop g price d fuel s ≠ some (.tuple c p) := by
  intro fuel
  induction fuel with
  | zero =>
    intro s hd c p h
    simp [dloop] at h
  | succ m ih =>
    intro s hd c p h
    unfold dloop at h
    cases hstep : stepFn g price d s with
    | ret c2 p2 =>
      obtain ⟨r, rest, hpop, hv, hlast, -, -⟩ := step_ret_cases hstep
      rw [hlast] at hv
      exact hv hd
    | exhausted =>
      rw [hstep] at h
      simp at h
    | next t =>
      rw [hstep] at h
      have ht : pyMem d t.visited := by
        obtain ⟨r, rest, hpop, hcase⟩ := step_next_cases hstep
        rcases hcase with ⟨-, rfl⟩ | ⟨-, -, rfl⟩
        · exact hd
        · exact pyMem_mono (fun x hx => List.mem_append.mpr (Or.inl hx)) hd
      exact ih t ht c p h

/-- C5 (amended): `dijkstra(s, s)` never returns the zero-cost single-node
path: the source is marked visited before the loop, so every candidate
ending at the source is discarded by the visited check before the
destination test ever runs; the search exhausts and returns the integer
`sys.maxsize`. -/
theorem dijkstra_source_to_itself_returns_sentinel
    (g : GraphM) (price : Airport → Airport → ℚ) (s : Airport) :
    dijkstra g price s s = some (.intval sysMaxsize) := by
  obtain ⟨res, hres⟩ :=
    @dloop_total g price s
      (phi g (initState g price s) + 1) (initState g price s) (by omega)
      (frontier_nodes_ok_init g price s)
  have hdij : dijkstra g price s s =
      dloop g price s (phi g (initState g price s) + 1) (initState g price s) := rfl
  cases res with
  | tuple c p =>
    have hsv : pyMem s (initState g price s).visited :=
      pyMem_of_mem (List.mem_singleton.mpr rfl)
    exact absurd hres (dloop_dest_visited_no_tuple _ _ hsv c p)
  | intval n =>
    have hn : n = sysMaxsize := dloop_intval_eq_sysMaxsize _ _ n hres
    rw [hdij, ← hn]
    exact hres

/-- C5, counterexample: on the graph `A—B`, `dijkstra(A, A)` returns the
`sys.maxsize` sentinel rather than cost `0` with path `[A]`. -/
theorem dijkstra_source_eq_destination_not_zero :
    dijkstra (connect graphInit apA apB) price5 apA apA =
      some (.intval 9223372036854775807) ∧
    dijkstra (connect graphInit apA apB) price5 apA apA ≠
      some (.tuple 0 [apA]) := by
  refine ⟨by decide, by decide⟩

/-- C10: `dijkstra` recognizes the destination by object identity (`is`),
not value equality.  Concretely: the graph `A—B` contains the object `apB`;
`apBtwin` is `==`-equal to `apB` in all five fields but a distinct object; a
path of `==`-equal airports from `apA` to the destination value exists, yet
`dijkstra(apA, apBtwin)` never succeeds — it exhausts and returns the
sentinel. -/
theorem dijkstra_destination_by_identity_not_equality :
    pyEq apB apBtwin ∧ apB ≠ apBtwin ∧
    IsWalkFrom (connect graphInit apA apB) apA apB [apA, apB] ∧
    dijkstra (connect graphInit apA apB) price5 apA apBtwin =
      some (.intval sysMaxsize) := by
  refine ⟨by decide, by decide, by decide, by decide⟩

theorem mem_dropLast_or_lastA {p : List Airport} (hne : p ≠ []) {x : Airport}
    (hx : x ∈ p) : x ∈ p.dropLast ∨ x = lastA p := by
  induction p with
  | nil => exact absurd rfl hne
  | cons a t ih =>
    cases t with
    | nil =>
      rcases List.mem_singleton.mp hx with rfl
      exact Or.inr rfl
    | cons b t2 =>
      rcases List.mem_cons.mp hx with rfl | hx2
      · exact Or.inl (List.mem_cons_self _ _)
      · rcases ih (List.cons_ne_nil b t2) hx2 with h | h
        · exact Or.inl (List.mem_cons_of_mem _ h)
        · rw [lastA_cons_of_ne (List.cons_ne_nil b t2)]
          exact Or.inr h

theorem frontierInv_init (g : GraphM) (price : Airport → Airport → ℚ)
    (o : Airport) : FrontierInv g price (initState g price o) := by
  intro r hr
  have hfr : (initState g price o).frontier =
      (neighborsList g o).map fun n => Route.mk (price o n) [o, n] := by
    show ((neighborsList g o).map fun n =>
      Route.mk (price o n) [o, n]).foldl heapPush [] = _
    rw [heapPush_foldl]
    rfl
  rw [hfr] at hr
  obtain ⟨n, hn, rfl⟩ := List.mem_map.mp hr
  refine ⟨?_, by simp, ?_, ?_⟩
  · show price o n = pathCost price [o, n]
    show price o n = price o n + pathCost price [n]
    simp [pathCost]
  · intro x hx
    have : x ∈ [o] := hx
    rcases List.mem_singleton.mp this with rfl
    exact pyMem_of_mem (List.mem_singleton.mpr rfl)
  · intro hslf
    refine List.pairwise_cons.mpr ⟨?_, List.pairwise_singleton _ _⟩
    intro b hb
    rcases List.mem_singleton.mp hb with rfl
    intro hon
    exact hslf o ⟨b, hn, hon⟩

theorem frontierInv_step {g : GraphM} {price : Airport → Airport → ℚ}
    {d : Airport} {s t : SState} (hstep : stepFn g price d s = .next t)
    (hinv : FrontierInv g price s) : FrontierInv g price t := by
  obtain ⟨r, rest, hpop, hcase⟩ := step_next_cases hstep
  have hperm := (heapPop_spec hpop).2.2
  have hrest : ∀ x ∈ rest, x ∈ s.frontier := fun x hx =>
    hperm.symm.subset (List.mem_cons_of_mem _ hx)
  rcases hcase with ⟨hv, rfl⟩ | ⟨hv, hd, rfl⟩
  · intro x hx
    exact hinv x (hrest x hx)
  · intro x hx
    rcases List.mem_append.mp hx with hx2 | hx2
    · obtain ⟨h1, h2, h3, h4⟩ := hinv x (hrest x hx2)
      refine ⟨h1, h2, ?_, h4⟩
      intro y hy
      exact pyMem_mono (fun z hz => List.mem_append.mpr (Or.inl hz)) (h3 y hy)
    · obtain ⟨n, hn, hmk⟩ := List.mem_filterMap.mp hx2
      by_cases hnv : pyMem n s.visited
      · rw [if_pos hnv] at hmk
        exact absurd hmk (by simp)
      · rw [if_neg hnv] at hmk
        obtain ⟨h1, h2, h3, h4⟩ := hinv r (heapPop_spec hpop).1
        injection hmk with hmk2
        subst hmk2
        refine ⟨?_, by simp, ?_, ?_⟩
        · show r.price + price (lastA r.path) n = pathCost price (r.path ++ [n])
          rw [pathCost_append_single price r.path n h2, h1]
        · intro y hy
          show pyMem y (s.visited ++ [lastA r.path])
          have hy2 : y ∈ r.path := by
            have hd2 : (r.path ++ [n]).dropLast = r.path := by
              rw [List.dropLast_concat]
            rw [hd2] at hy
            exact hy
          rcases mem_dropLast_or_lastA h2 hy2 with hy3 | hy3
          · exact pyMem_mono (fun z hz => List.mem_append.mpr (Or.inl hz)) (h3 y hy3)
          · subst hy3
            exact ⟨lastA r.path,
              List.mem_append.mpr (Or.inr (List.mem_singleton.mpr rfl)), pyEq_refl _⟩
        · intro hslf
          rw [List.pairwise_append]
          refine ⟨h4 hslf, List.pairwise_singleton _ _, ?_⟩
          intro a ha b hb
          rcases List.mem_singleton.mp hb with rfl
          rcases mem_dropLast_or_lastA h2 ha with ha2 | ha2
          · intro haeq
            exact hnv (pyMem_transfer (pyEq_symm haeq) (h3 a ha2))
          · subst ha2
            intro haeq
            exact hslf (lastA r.path) ⟨b, hn, haeq⟩

/-- C7 (amended): every candidate path ever held in the frontier during a
search has accumulated cost equal to the sum of the derived edge costs along
its node sequence (unconditionally), and has no repeated node provided no
node of the graph is connected to itself; a self-loop `connect(a, a)` puts a
repeated-node candidate into the frontier. -/
theorem frontier_candidates_cost_sum_and_nodup
    (g : GraphM) (price : Airport → Airport → ℚ) (o d : Airport) (s : SState)
    (hreach : ReachState g price o d s) :
    ∀ r ∈ s.frontier,
      r.price = pathCost price r.path ∧
      ((∀ a, ¬ adj g a a) → r.path.Nodup) := by
  have hinv : FrontierInv g price s := by
    induction hreach with
    | refl => exact frontierInv_init g price o
    | tail hpref hbc ih => exact frontierInv_step hbc ih
  intro r hr
  obtain ⟨h1, -, -, h4⟩ := hinv r hr
  refine ⟨h1, fun hslf => ?_⟩
  refine (h4 hslf).imp ?_
  intro a b hne heq
  refine hne ?_
  rw [heq]
  exact pyEq_refl b

/-- Witness for the amended C7 theorem at the initial state of a concrete
search, instantiated at its single frontier candidate. -/
theorem frontier_candidates_cost_sum_and_nodup_witness :
    (Route.mk 5 [apA, apB]).price = pathCost price5 (Route.mk 5 [apA, apB]).path ∧
    ((∀ a, ¬ adj gLine a a) → (Route.mk 5 [apA, apB]).path.Nodup) :=
  frontier_candidates_cost_sum_and_nodup gLine price5 apA apC _
    Relation.ReflTransGen.refl (Route.mk 5 [apA, apB]) (by decide)

/-- C7, counterexample: with the self-loop `connect(A, A)`, the initial
search state (reachable by zero iterations) already holds the candidate path
`[A, A]`, whose node sequence repeats a node. -/
theorem frontier_repeated_node_with_self_loop :
    ReachState (connect graphInit apA apA) price5 apA apB
      (initState (connect graphInit apA apA) price5 apA) ∧
    ∃ r ∈ (initState (connect graphInit apA apA) price5 apA).frontier,
      ¬ r.path.Nodup := by
  refine ⟨Relation.ReflTransGen.refl, ⟨⟨5, [apA, apA]⟩, by decide, by decide⟩⟩

theorem lastA_mem {p : List Airport} (h : p ≠ []) : lastA p ∈ p := by
  induction p with
  | nil => exact absurd rfl h
  | cons a t ih =>
    cases t with
    | nil => exact List.mem_singleton.mpr rfl
    | cons b t2 =>
      rw [lastA_cons_of_ne (List.cons_ne_nil b t2)]
      exact List.mem_cons_of_mem _ (ih (List.cons_ne_nil b t2))

theorem dropLast_append_lastA {p : List Airport} (h : p ≠ []) :
    p.dropLast ++ [lastA p] = p := by
  induction p with
  | nil => exact absurd rfl h
  | cons a t ih =>
    cases t with
    | nil => rfl
    | cons b t2 =>
      rw [lastA_cons_of_ne (List.cons_ne_nil b t2)]
      show a :: ((b :: t2).dropLast ++ [lastA (b :: t2)]) = a :: b :: t2
      rw [ih (List.cons_ne_nil b t2)]

theorem nodup_of_dropLast {p : List Airport} (hne : p ≠ [])
    (h1 : p.dropLast.Nodup) (h2 : lastA p ∉ p.dropLast) : p.Nodup := by
  rw [← dropLast_append_lastA hne]
  rw [List.nodup_append]
  exact ⟨h1, List.nodup_singleton _, by
    intro a ha hb
    rcases List.mem_singleton.mp hb with rfl
    exact h2 ha⟩

theorem head?_append_of_ne_nil {p : List Airport} (q : List Airport)
    (h : p ≠ []) : (p ++ q).head? = p.head? := by
  cases p with
  | nil => exact absurd rfl h
  | cons a t => rfl

theorem walk_self_nodup_singleton {g : GraphM} {o : Airport} {P : List Airport}
    (h : IsWalkFrom g o o P) (hnd : P.Nodup) : P = [o] := by
  obtain ⟨hne, hhead, hlast, -⟩ := h
  cases P with
  | nil => exact absurd rfl hne
  | cons a t =>
    have ha : a = o := by
      simp only [List.head?_cons, Option.some.injEq] at hhead
      exact hhead
    subst ha
    cases t with
    | nil => rfl
    | cons b t2 =>
      have hlt : (b :: t2).getLast? = some a := by
        rw [List.getLast?_cons_cons] at hlast
        exact hlast
      have hmem : a ∈ b :: t2 := by
        have h2 := @getLast?_lastA (b :: t2) (List.cons_ne_nil b t2)
        rw [h2] at hlt
        injection hlt with hlt2
        rw [← hlt2]
        exact lastA_mem (List.cons_ne_nil b t2)
      rw [List.nodup_cons] at hnd
      exact absurd hmem hnd.1

theorem split_at_first_not_mem :
    ∀ (l V : List Airport), (∃ x ∈ l, x ∉ V) →
      (∀ h, l.head? = some h → h ∈ V) →
      ∃ A y B, l = A ++ y :: B ∧ A ≠ [] ∧ (∀ a ∈ A, a ∈ V) ∧ y ∉ V := by
  intro l
  induction l with
  | nil =>
    intro V hex
    obtain ⟨x, hx, -⟩ := hex
    exact absurd hx (List.not_mem_nil x)
  | cons a t ih =>
    intro V hex hhead
    have haV : a ∈ V := hhead a rfl
    have hext : ∃ x ∈ t, x ∉ V := by
      obtain ⟨x, hx, hxv⟩ := hex
      rcases List.mem_cons.mp hx with rfl | hx2
      · exact absurd haV hxv
      · exact ⟨x, hx2, hxv⟩
    cases t with
    | nil =>
      obtain ⟨x, hx, -⟩ := hext
      exact absurd hx (List.not_mem_nil x)
    | cons b t2 =>
      by_cases hbV : b ∈ V
      · obtain ⟨A, y, B, heq, hAne, hAV, hyV⟩ :=
          ih V hext (by
            intro h hh
            simp only [List.head?_cons, Option.some.injEq] at hh
            rw [hh] at hbV
            exact hbV)
        refine ⟨a :: A, y, B, by rw [heq]; rfl, List.cons_ne_nil a A, ?_, hyV⟩
        intro x hx
        rcases List.mem_cons.mp hx with rfl | hx2
        · exact haV
        · exact hAV x hx2
      · exact ⟨[a], b, t2, rfl, List.cons_ne_nil a [],
          fun x hx => by rcases List.mem_singleton.mp hx with rfl; exact haV, hbV⟩

theorem chainAdj_split {g : GraphM} :
    ∀ (A : List Airport) (y : Airport) (B : List Airport),
      chainAdj g (A ++ y :: B) → A ≠ [] →
      chainAdj g A ∧ adj g (lastA A) y := by
  intro A
  induction A with
  | nil =>
    intro y B h hne
    exact absurd rfl hne
  | cons a t ih =>
    intro y B h hne
    cases t with
    | nil =>
      obtain ⟨hay, -⟩ := h
      exact ⟨trivial, hay⟩
    | cons b t2 =>
      obtain ⟨hab, hrest⟩ := h
      obtain ⟨hc, hadj⟩ := ih y B hrest (List.cons_ne_nil b t2)
      rw [lastA_cons_of_ne (List.cons_ne_nil b t2)]
      exact ⟨⟨hab, hc⟩, hadj⟩

theorem routeKey_le_price {r x : Route} (h : routeKey r ≤ routeKey x) :
    r.price ≤ x.price := by
  have h2 : (r.price, r.path.map airportKey).1 < (x.price, x.path.map airportKey).1 ∨
      (r.price, r.path.map airportKey).1 = (x.price, x.path.map airportKey).1 ∧
      (r.price, r.path.map airportKey).2 ≤ (x.price, x.path.map airportKey).2 := by
    rw [← Prod.Lex.le_iff]
    exact h
  rcases h2 with h3 | ⟨h3, -⟩
  · exact le_of_lt h3
  · exact le_of_eq h3

theorem mem_scope_left (g : GraphM) (o d : Airport) : o ∈ scopeList g o d :=
  List.mem_cons_self _ _

theorem mem_scope_dest (g : GraphM) (o d : Airport) : d ∈ scopeList g o d :=
  List.mem_cons_of_mem _ (List.mem_cons_self _ _)

theorem mem_scope_of_node {g : GraphM} {o d x : Airport}
    (h : x ∈ nodesOfList g) : x ∈ scopeList g o d :=
  List.mem_cons_of_mem _ (List.mem_cons_of_mem _ h)

theorem pyMem_iff_mem_of_coherent {g : GraphM} {o d : Airport}
    (hcoh : Coherent g o d) {x : Airport} (hx : x ∈ scopeList g o d)
    {l : List Airport} (hl : ∀ y ∈ l, y ∈ scopeList g o d) :
    pyMem x l ↔ x ∈ l := by
  constructor
  · rintro ⟨b, hb, hxb⟩
    rw [hcoh x hx b (hl b hb) hxb]
    exact hb
  · exact pyMem_of_mem

theorem adj_iff_mem_of_coherent {g : GraphM} {o d : Airport}
    (hcoh : Coherent g o d) {z y : Airport} (hy : y ∈ scopeList g o d) :
    adj g z y ↔ y ∈ neighborsList g z := by
  constructor
  · rintro ⟨m, hm, hym⟩
    rw [hcoh y hy m (mem_scope_of_node (mem_nodesOfList_of_mem_neighborsList hm)) hym]
    exact hm
  · exact fun h => pyMem_of_mem h

theorem adj_mem_nodes_of_coherent {g : GraphM} {o d : Airport}
    (hcoh : Coherent g o d) {z y : Airport} (hy : y ∈ scopeList g o d)
    (h : adj g z y) : y ∈ nodesOfList g :=
  mem_nodesOfList_of_mem_neighborsList ((adj_iff_mem_of_coherent hcoh hy).mp h)

theorem pop_price_le_outside_walk
    {g : GraphM} {price : Airport → Airport → ℚ} {o d : Airport}
    (hnn : ∀ a b, 0 ≤ price a b) (hcoh : Coherent g o d)
    {s : SState} (hinv : DijkInv g price o d s)
    {r : Route} {rest : List Route} (hpop : heapPop s.frontier = some (r, rest))
    {w : Airport} {P : List Airport} (hP : IsWalkFrom g o w P) (hPnd : P.Nodup)
    (hPsc : ∀ x ∈ P, x ∈ scopeList g o d) (hw : w ∉ s.visited) :
    r.price ≤ pathCost price P := by
  obtain ⟨hfr, hoV, hVsc, hdV, pv, hG1, hG2⟩ := hinv
  obtain ⟨hPne, hPhead, hPlast, hPchain⟩ := hP
  have hlastP : lastA P = w := by
    have h2 := getLast?_lastA hPne
    rw [h2] at hPlast
    injection hPlast
  have hex : ∃ x ∈ P, x ∉ s.visited :=
    ⟨lastA P, lastA_mem hPne, by rw [hlastP]; exact hw⟩
  have hheadV : ∀ h, P.head? = some h → h ∈ s.visited := by
    intro h hh
    rw [hPhead] at hh
    injection hh with hh2
    rw [← hh2]
    exact hoV
  obtain ⟨A, y, B, hsplit, hAne, hAV, hyV⟩ :=
    split_at_first_not_mem P s.visited hex hheadV
  have hchainA : chainAdj g A ∧ adj g (lastA A) y := by
    apply chainAdj_split A y B _ hAne
    rw [← hsplit]
    exact hPchain
  have hzV : lastA A ∈ s.visited := hAV (lastA A) (lastA_mem hAne)
  have hysc : y ∈ scopeList g o d := hPsc y (by
    rw [hsplit]
    exact List.mem_append.mpr (Or.inr (List.mem_cons_self _ _)))
  have hynode : y ∈ nodesOfList g := adj_mem_nodes_of_coherent hcoh hysc hchainA.2
  obtain ⟨r2, hr2mem, hr2last, hr2le⟩ := hG2 (lastA A) hzV y hynode hchainA.2 hyV
  have hrle : r.price ≤ r2.price :=
    routeKey_le_price ((heapPop_spec hpop).2.1 r2 hr2mem)
  have hAhead : A.head? = some o := by
    rw [hsplit, head?_append_of_ne_nil _ hAne] at hPhead
    exact hPhead
  have hAwalk : IsWalkFrom g o (lastA A) A :=
    ⟨hAne, hAhead, getLast?_lastA hAne, hchainA.1⟩
  have hAnd : A.Nodup := by
    have hsub : A.Sublist P := by
      rw [hsplit]
      exact List.sublist_append_left A (y :: B)
    exact hPnd.sublist hsub
  have hAsc : ∀ x ∈ A, x ∈ scopeList g o d := fun x hx => hPsc x (by
    rw [hsplit]
    exact List.mem_append.mpr (Or.inl hx))
  have hpvz := hG1 (lastA A) hzV A hAwalk hAnd hAsc
  have hcost : pathCost price P =
      pathCost price A + price (lastA A) y + pathCost price (y :: B) := by
    rw [hsplit, pathCost_append_cons, pathCost_append_single price A y hAne]
  have hnnB : 0 ≤ pathCost price (y :: B) := pathCost_nonneg price hnn _
  linarith

theorem frontier_ne_nil_of_reachable
    {g : GraphM} {price : Airport → Airport → ℚ} {o d : Airport}
    (hcoh : Coherent g o d) {s : SState} (hinv : DijkInv g price o d s)
    {q : List Airport} (hq : IsWalkFrom g o d q)
    (hqsc : ∀ x ∈ q, x ∈ scopeList g o d) :
    s.frontier ≠ [] := by
  obtain ⟨hfr, hoV, hVsc, hdV, pv, hG1, hG2⟩ := hinv
  obtain ⟨hqne, hqhead, hqlast, hqchain⟩ := hq
  have hlastq : lastA q = d := by
    have h2 := getLast?_lastA hqne
    rw [h2] at hqlast
    injection hqlast
  have hex : ∃ x ∈ q, x ∉ s.visited :=
    ⟨lastA q, lastA_mem hqne, by rw [hlastq]; exact hdV⟩
  have hheadV : ∀ h, q.head? = some h → h ∈ s.visited := by
    intro h hh
    rw [hqhead] at hh
    injection hh with hh2
    rw [← hh2]
    exact hoV
  obtain ⟨A, y, B, hsplit, hAne, hAV, hyV⟩ :=
    split_at_first_not_mem q s.visited hex hheadV
  have hchainA : chainAdj g A ∧ adj g (lastA A) y := by
    apply chainAdj_split A y B _ hAne
    rw [← hsplit]
    exact hqchain
  have hzV : lastA A ∈ s.visited := hAV (lastA A) (lastA_mem hAne)
  have hysc : y ∈ scopeList g o d := hqsc y (by
    rw [hsplit]
    exact List.mem_append.mpr (Or.inr (List.mem_cons_self _ _)))
  have hynode : y ∈ nodesOfList g := adj_mem_nodes_of_coherent hcoh hysc hchainA.2
  obtain ⟨r2, hr2mem, -, -⟩ := hG2 (lastA A) hzV y hynode hchainA.2 hyV
  intro hnil
  rw [hnil] at hr2mem
  exact List.not_mem_nil r2 hr2mem

theorem dijkInv_init {g : GraphM} {price : Airport → Airport → ℚ} {o d : Airport}
    (hcoh : Coherent g o d) (hod : o ≠ d) :
    DijkInv g price o d (initState g price o) := by
  have hfr0 : (initState g price o).frontier =
      (neighborsList g o).map fun n => Route.mk (price o n) [o, n] := by
    show ((neighborsList g o).map fun n =>
      Route.mk (price o n) [o, n]).foldl heapPush [] = _
    rw [heapPush_foldl]
    rfl
  refine ⟨?_, List.mem_singleton.mpr rfl, ?_, ?_, fun _ => 0, ?_, ?_⟩
  · intro r hr
    rw [hfr0] at hr
    obtain ⟨n, hn, rfl⟩ := List.mem_map.mp hr
    refine ⟨by simp, rfl, ⟨⟨n, hn, pyEq_refl n⟩, trivial⟩, ?_, ?_, ?_, ?_⟩
    · show price o n = price o n + pathCost price [n]
      simp [pathCost]
    · intro x hx
      have hx2 : x ∈ [o] := hx
      rcases List.mem_singleton.mp hx2 with rfl
      exact List.mem_singleton.mpr rfl
    · exact List.nodup_singleton o
    · intro x hx
      rcases List.mem_cons.mp hx with h | hx2
      · subst x
        exact mem_scope_left g o d
      · have h : x = n := List.mem_singleton.mp hx2
        subst x
        exact mem_scope_of_node (mem_nodesOfList_of_mem_neighborsList hn)
  · intro x hx
    have h : x = o := List.mem_singleton.mp hx
    subst x
    exact mem_scope_left g o d
  · intro hd2
    have h := List.mem_singleton.mp hd2
    exact hod h.symm
  · intro z hz P hP hPnd hPsc
    have hz2 : z = o := List.mem_singleton.mp hz
    subst z
    rw [walk_self_nodup_singleton hP hPnd]
    show (0 : ℚ) ≤ pathCost price [o]
    simp [pathCost]
  · intro z hz y hynode hadj hyV
    have hz2 : z = o := List.mem_singleton.mp hz
    subst z
    have hyz : y ∈ neighborsList g o :=
      (adj_iff_mem_of_coherent hcoh (mem_scope_of_node hynode)).mp hadj
    refine ⟨⟨price o y, [o, y]⟩, ?_, rfl, ?_⟩
    · rw [hfr0]
      exact List.mem_map.mpr ⟨y, hyz, rfl⟩
    · show price o y ≤ 0 + price o y
      simp

theorem dijkInv_step {g : GraphM} {price : Airport → Airport → ℚ} {o d : Airport}
    (hnn : ∀ a b, 0 ≤ price a b) (hcoh : Coherent g o d)
    {s t : SState} (hstep : stepFn g price d s = .next t)
    (hinv : DijkInv g price o d s) : DijkInv g price o d t := by
  have hinvKeep := hinv
  obtain ⟨r, rest, hpop, hcase⟩ := step_next_cases hstep
  have hperm := (heapPop_spec hpop).2.2
  have hrmem := (heapPop_spec hpop).1
  have hrest_sub : ∀ x ∈ rest, x ∈ s.frontier := fun x hx =>
    hperm.symm.subset (List.mem_cons_of_mem _ hx)
  have hmem_rest : ∀ x ∈ s.frontier, x ≠ r → x ∈ rest := by
    intro x hx hne
    rcases List.mem_cons.mp (hperm.subset hx) with h | h
    · exact absurd h hne
    · exact h
  obtain ⟨hfr, hoV, hVsc, hdV, pv, hG1, hG2⟩ := hinv
  rcases hcase with ⟨hv, rfl⟩ | ⟨hv, hd2, rfl⟩
  · refine ⟨?_, hoV, hVsc, hdV, pv, hG1, ?_⟩
    · intro x hx
      exact hfr x (hrest_sub x hx)
    · intro z hz y hynode hadj hyV2
      obtain ⟨r2, hr2mem, hr2last, hr2le⟩ := hG2 z hz y hynode hadj hyV2
      refine ⟨r2, ?_, hr2last, hr2le⟩
      refine hmem_rest r2 hr2mem ?_
      intro heq
      rw [heq] at hr2last
      rw [hr2last] at hv
      exact hyV2
        ((pyMem_iff_mem_of_coherent hcoh (mem_scope_of_node hynode) hVsc).mp hv)
  · obtain ⟨hrne, hrhead, hrchain, hrcost, hrdropV, hrdropNd, hrsc⟩ := hfr r hrmem
    have husc : lastA r.path ∈ scopeList g o d := hrsc _ (lastA_mem hrne)
    have huV : lastA r.path ∉ s.visited := fun h => hv (pyMem_of_mem h)
    refine ⟨?_, List.mem_append.mpr (Or.inl hoV), ?_, ?_,
      fun v => if v = lastA r.path then r.price else pv v, ?_, ?_⟩
    · intro x hx
      rcases List.mem_append.mp hx with hx2 | hx2
      · obtain ⟨h1, h2, h3, h4, h5, h6, h7⟩ := hfr x (hrest_sub x hx2)
        exact ⟨h1, h2, h3, h4,
          fun z hz => List.mem_append.mpr (Or.inl (h5 z hz)), h6, h7⟩
      · obtain ⟨n, hn, hmk⟩ := List.mem_filterMap.mp hx2
        by_cases hnv : pyMem n s.visited
        · rw [if_pos hnv] at hmk
          exact absurd hmk (by simp)
        · rw [if_neg hnv] at hmk
          injection hmk with hmk2
          subst hmk2
          have hadj_un : adj g (lastA r.path) n := ⟨n, hn, pyEq_refl n⟩
          refine ⟨by simp, ?_, ?_, ?_, ?_, ?_, ?_⟩
          · rw [head?_append_of_ne_nil _ hrne]
            exact hrhead
          · exact chainAdj_append_single hrchain hadj_un hrne
          · show r.price + price (lastA r.path) n = pathCost price (r.path ++ [n])
            rw [pathCost_append_single price _ _ hrne, hrcost]
          · intro z hz
            have hz2 : z ∈ r.path := by
              rw [List.dropLast_concat] at hz
              exact hz
            rcases mem_dropLast_or_lastA hrne hz2 with h | h
            · exact List.mem_append.mpr (Or.inl (hrdropV z h))
            · subst h
              exact List.mem_append.mpr (Or.inr (List.mem_singleton.mpr rfl))
          · show (r.path ++ [n]).dropLast.Nodup
            rw [List.dropLast_concat]
            refine nodup_of_dropLast hrne hrdropNd ?_
            intro hmem
            exact huV (hrdropV _ hmem)
          · intro z hz
            rcases List.mem_append.mp hz with h | h
            · exact hrsc z h
            · have h2 : z = n := List.mem_singleton.mp h
              subst z
              exact mem_scope_of_node (mem_nodesOfList_of_mem_neighborsList hn)
    · intro x hx
      rcases List.mem_append.mp hx with h | h
      · exact hVsc x h
      · have h2 : x = lastA r.path := List.mem_singleton.mp h
        subst x
        exact husc
    · intro hdmem
      rcases List.mem_append.mp hdmem with h | h
      · exact hdV h
      · exact hd2 (List.mem_singleton.mp h).symm
    · intro z hz P hP hPnd hPsc
      rcases List.mem_append.mp hz with hz2 | hz2
      · have hzne : z ≠ lastA r.path := by
          intro h
          rw [h] at hz2
          exact huV hz2
        show (if z = lastA r.path then r.price else pv z) ≤ _
        rw [if_neg hzne]
        exact hG1 z hz2 P hP hPnd hPsc
      · have h2 : z = lastA r.path := List.mem_singleton.mp hz2
        subst z
        show (if lastA r.path = lastA r.path then r.price else pv (lastA r.path)) ≤ _
        rw [if_pos rfl]
        exact pop_price_le_outside_walk hnn hcoh hinvKeep hpop hP hPnd hPsc huV
    · intro z hz y hynode hadj hyV2
      have hyVold : y ∉ s.visited := fun h =>
        hyV2 (List.mem_append.mpr (Or.inl h))
      have hyneu : y ≠ lastA r.path := fun h =>
        hyV2 (List.mem_append.mpr (Or.inr (List.mem_singleton.mpr h)))
      rcases List.mem_append.mp hz with hz2 | hz2
      · have hzne : z ≠ lastA r.path := by
          intro h
          rw [h] at hz2
          exact huV hz2
        obtain ⟨r2, hr2mem, hr2last, hr2le⟩ := hG2 z hz2 y hynode hadj hyVold
        have hr2ne : r2 ≠ r := by
          intro heq
          rw [heq] at hr2last
          exact hyneu hr2last.symm
        refine ⟨r2, List.mem_append.mpr (Or.inl (hmem_rest r2 hr2mem hr2ne)),
          hr2last, ?_⟩
        show r2.price ≤ (if z = lastA r.path then r.price else pv z) + price z y
        rw [if_neg hzne]
        exact hr2le
      · have h2 : z = lastA r.path := List.mem_singleton.mp hz2
        subst z
        have hymem : y ∈ neighborsList g (lastA r.path) :=
          (adj_iff_mem_of_coherent hcoh (mem_scope_of_node hynode)).mp hadj
        have hynotpy : ¬ pyMem y s.visited := by
          intro hpy
          exact hyVold
            ((pyMem_iff_mem_of_coherent hcoh (mem_scope_of_node hynode) hVsc).mp hpy)
        refine ⟨⟨r.price + price (lastA r.path) y, r.path ++ [y]⟩, ?_, ?_, ?_⟩
        · refine List.mem_append.mpr (Or.inr ?_)
          refine List.mem_filterMap.mpr ⟨y, hymem, ?_⟩
          rw [if_neg hynotpy]
        · exact lastA_append_single _ _
        · show r.price + price (lastA r.path) y ≤
            (if lastA r.path = lastA r.path then r.price else pv (lastA r.path)) +
              price (lastA r.path) y
          rw [if_pos rfl]

theorem dloop_finds_shortest
    {g : GraphM} {price : Airport → Airport → ℚ} {o d : Airport}
    (hnn : ∀ a b, 0 ≤ price a b) (hcoh : Coherent g o d)
    {q : List Airport} (hq : IsWalkFrom g o d q)
    (hqsc : ∀ x ∈ q, x ∈ scopeList g o d) :
    ∀ (fuel : ℕ) (s : SState), phi g s < fuel →
      DijkInv g price o d s →
      (∀ r ∈ s.frontier, ∃ v ∈ nodesOfList g, pyEq v (lastA r.path)) →
      ∃ c p, dloop g price d fuel s = some (.tuple c p) ∧
        IsWalkFrom g o d p ∧ p.Nodup ∧ pathCost price p = c ∧
        ∀ P, IsWalkFrom g o d P → P.Nodup →
          (∀ x ∈ P, x ∈ scopeList g o d) → c ≤ pathCost price P := by
  intro fuel
  induction fuel with
  | zero =>
    intro s h _ _
    omega
  | succ m ih =>
    intro s hphi hinv hL
    cases hstep : stepFn g price d s with
    | exhausted =>
      have hne := frontier_ne_nil_of_reachable hcoh hinv hq hqsc
      exact absurd (step_exhausted_cases hstep) hne
    | ret c p =>
      obtain ⟨r, rest, hpop, hv, hlast, hc, hp⟩ := step_ret_cases hstep
      subst hc
      subst hp
      obtain ⟨hrne, hrhead, hrchain, hrcost, hrdropV, hrdropNd, hrsc⟩ :=
        hinv.1 r (heapPop_spec hpop).1
      have hdV : d ∉ s.visited := hinv.2.2.2.1
      have huV : lastA r.path ∉ s.visited := fun h => hv (pyMem_of_mem h)
      have hwalk : IsWalkFrom g o d r.path := by
        refine ⟨hrne, hrhead, ?_, hrchain⟩
        rw [getLast?_lastA hrne, hlast]
      have hnodup : r.path.Nodup := by
        refine nodup_of_dropLast hrne hrdropNd ?_
        intro hmem
        exact huV (hrdropV _ hmem)
      refine ⟨r.price, r.path, ?_, hwalk, hnodup, hrcost.symm, ?_⟩
      · unfold dloop
        rw [hstep]
      · intro P hP hPnd hPsc
        exact pop_price_le_outside_walk hnn hcoh hinv hpop hP hPnd hPsc hdV
    | next t =>
      have hlt := phi_step_lt hstep hL
      have hinv2 := dijkInv_step hnn hcoh hstep hinv
      have hL2 := frontier_nodes_ok_step hstep hL
      obtain ⟨c, p, hdl, hW, hN, hC, hOpt⟩ := ih t (by omega) hinv2 hL2
      refine ⟨c, p, ?_, hW, hN, hC, hOpt⟩
      unfold dloop
      rw [hstep]
      exact hdl

/-- C1 (amended): for every graph whose in-scope airport objects are
value-coherent (`==`-equal objects are identical, as produced by
`Graph.load`'s registry), every non-negative price function, and every query
with `origin ≠ destination` and a simple path (over the graph's nodes) from
origin to destination, `Graph.dijkstra` returns a `(cost, path)` tuple whose
path is a simple walk from origin to destination achieving cost, and whose
cost is minimal among all simple paths in the graph from origin to
destination.  (The original claim fails at `origin = destination`, which is
reachable by the trivial simple path yet answered with the sentinel.) -/
theorem dijkstra_finds_cheapest_simple_path
    (g : GraphM) (price : Airport → Airport → ℚ) (o d : Airport)
    (hnn : ∀ a b, 0 ≤ price a b) (hcoh : Coherent g o d) (hod : o ≠ d)
    (hreach : ∃ q, IsWalkFrom g o d q ∧ q.Nodup ∧
      ∀ x ∈ q, x ∈ scopeList g o d) :
    ∃ c p, dijkstra g price o d = some (.tuple c p) ∧
      IsWalkFrom g o d p ∧ p.Nodup ∧ pathCost price p = c ∧
      ∀ P, IsWalkFrom g o d P → P.Nodup →
        (∀ x ∈ P, x ∈ scopeList g o d) → c ≤ pathCost price P := by
  obtain ⟨q, hq, -, hqsc⟩ := hreach
  exact dloop_finds_shortest hnn hcoh hq hqsc _ _ (by omega)
    (dijkInv_init hcoh hod) (frontier_nodes_ok_init g price o)

/-- Witness for the amended C1 theorem on the concrete graph `A—B` with the
query `(A, B)`. -/
theorem dijkstra_finds_cheapest_simple_path_witness :
    ∃ c p, dijkstra (connect graphInit apA apB) price5 apA apB =
        some (.tuple c p) ∧
      IsWalkFrom (connect graphInit apA apB) apA apB p ∧ p.Nodup ∧
      pathCost price5 p = c ∧
      ∀ P, IsWalkFrom (connect graphInit apA apB) apA apB P → P.Nodup →
        (∀ x ∈ P, x ∈ scopeList (connect graphInit apA apB) apA apB) →
        c ≤ pathCost price5 P :=
  dijkstra_finds_cheapest_simple_path (connect graphInit apA apB) price5 apA apB
    (fun _ _ => (by decide : (0 : ℚ) ≤ 5)) (by decide) (by decide)
    ⟨[apA, apB], by decide, by decide, by decide⟩

/-- C1, counterexample: with source = destination — trivially reachable via
the simple path `[C]` of cost 0 — the function returns the integer sentinel,
not a `(cost, path)` tuple achieving the minimum. -/
theorem dijkstra_equal_endpoints_reachable_but_fails :
    IsWalkFrom (connect graphInit apC apD) apC apC [apC] ∧ [apC].Nodup ∧
    pathCost price5 [apC] = 0 ∧
    dijkstra (connect graphInit apC apD) price5 apC apC =
      some (.intval sysMaxsize) := by
  refine ⟨by decide, by decide, rfl, by decide⟩
